import Mathlib

/-!
Verification development for the ipvc core (branch / stage / diff APIs).

The repository state living in the external content-addressed store (the
mutable files namespace of an IPFS daemon) is modelled as a finite tree of
named entries.  Immutable hash-addressed objects are modelled by the trees
themselves: in a content-addressed store two objects are equal exactly when
their hashes are equal, so a "hash" in this development is the object (tree)
it addresses.

The files `branch.py`, `stage.py` and `diff.py` are embedded operation by
operation.  The helpers they import from `common.py` (which is not part of
the sources at hand) are modelled from the specification and are marked
`Modelled from the spec:` in their doc comments; in particular the `atomic`
wrapper is, per the spec (sections 5, 7 and 9), a scoped exclusive lock with
no rollback, so every embedded operation returns the store state on every
exit path, also the failing ones.
-/

deriving instance DecidableEq for Except

namespace Ipvc

mutual

/-- A node of the mutable files namespace: either a file with its content,
or a directory with a list of named entries. -/
inductive Tree where
  | file : String → Tree
  | dir : Entries → Tree
  deriving DecidableEq

/-- Entry list of a directory: an association list of names to subtrees. -/
inductive Entries where
  | nil : Entries
  | cons : String → Tree → Entries → Entries
  deriving DecidableEq

end

/-- Build an entry list from a list of named subtrees. -/
def Entries.ofList : List (String × Tree) → Entries
  | [] => .nil
  | (n, t) :: rest => .cons n t (Entries.ofList rest)

/-- Look a name up in a directory's entry list. -/
def Entries.find : Entries → String → Option Tree
  | .nil, _ => none
  | .cons m t rest, n => if m = n then some t else rest.find n

/-- Replace the entry with the given name, or append it if absent. -/
def Entries.set : Entries → String → Tree → Entries
  | .nil, n, v => .cons n v .nil
  | .cons m t rest, n, v =>
    if m = n then .cons m v rest else .cons m t (rest.set n v)

/-- Remove the entry with the given name (no-op when absent). -/
def Entries.remove : Entries → String → Entries
  | .nil, _ => .nil
  | .cons m t rest, n =>
    if m = n then rest.remove n else .cons m t (rest.remove n)

/-- Resolve a path to the subtree it addresses (`files_stat` resolution);
`none` models the store's `StatusError` for an absent path. -/
def Tree.get : Tree → List String → Option Tree
  | t, [] => some t
  | .file _, _ :: _ => none
  | .dir es, n :: p =>
    match es.find n with
    | some c => c.get p
    | none => none

/-- Read the content of the file at a path (`files_read` / `cat`). -/
def Tree.getFile (t : Tree) (p : List String) : Option String :=
  match t.get p with
  | some (.file c) => some c
  | _ => none

/-- Write the given object at a path (`files_cp` destination / `files_write`):
parents must already exist, the final entry is created or replaced. -/
def Tree.setPath : Tree → List String → Tree → Option Tree
  | _, [], v => some v
  | .file _, _ :: _, _ => none
  | .dir es, [n], v => some (.dir (es.set n v))
  | .dir es, n :: m :: p, v =>
    match es.find n with
    | some c => (c.setPath (m :: p) v).map (fun c2 => .dir (es.set n c2))
    | none => none

/-- Remove the object at a path (`files_rm -r`); fails when absent. -/
def Tree.rmPath : Tree → List String → Option Tree
  | _, [] => none
  | .file _, _ :: _ => none
  | .dir es, [n] =>
    if (es.find n).isSome then some (.dir (es.remove n)) else none
  | .dir es, n :: m :: p =>
    match es.find n with
    | some c => (c.rmPath (m :: p)).map (fun c2 => .dir (es.set n c2))
    | none => none

/-- Create a directory at a path, creating missing parents
(`files_mkdir` with `parents=True`). -/
def Tree.mkdirp : Tree → List String → Option Tree
  | t, [] => some t
  | .file _, _ :: _ => none
  | .dir es, n :: p =>
    match es.find n with
    | some c => (c.mkdirp p).map (fun c2 => .dir (es.set n c2))
    | none => ((Tree.dir .nil).mkdirp p).map (fun c2 => .dir (es.set n c2))

/-- Write the given object at a path, creating missing intermediate
directories along the way. -/
def Tree.setp : Tree → List String → Tree → Option Tree
  | _, [], v => some v
  | .file _, _ :: _, _ => none
  | .dir es, [n], v => some (.dir (es.set n v))
  | .dir es, n :: m :: p, v =>
    match es.find n with
    | some c => (c.setp (m :: p) v).map (fun c2 => .dir (es.set n c2))
    | none => ((Tree.dir .nil).setp (m :: p) v).map (fun c2 => .dir (es.set n c2))

/-- A single diff entry, the unit produced by the Diff Engine. -/
inductive Change where
  | added : List String → Change
  | removed : List String → Change
  | modified : List String → Change
  deriving DecidableEq

mutual

/-- All files of a tree, as pairs of relative path and content. -/
def Tree.files : Tree → List (List String × String)
  | .file c => [([], c)]
  | .dir es => es.files

/-- All files reachable from an entry list. -/
def Entries.files : Entries → List (List String × String)
  | .nil => []
  | .cons n t rest => (t.files).map (fun pc => (n :: pc.1, pc.2)) ++ rest.files

end

/-- Look a relative path up in a file listing. -/
def lookupFileList : List (List String × String) → List String → Option String
  | [], _ => none
  | (q, c) :: rest, p => if q = p then some c else lookupFileList rest p

/-- Modelled from the spec: the Diff Engine (section 4.2) walks two trees by
relative path; a path present only in the second tree is `added`, present
only in the first is `removed`, present in both with differing content hash
is `modified`. -/
def diffFileLists (fromFiles toFiles : List (List String × String)) :
    List Change :=
  let keys := ((fromFiles.map Prod.fst) ++ (toFiles.map Prod.fst)).dedup
  keys.filterMap (fun k =>
    match lookupFileList fromFiles k, lookupFileList toFiles k with
    | none, some _ => some (.added k)
    | some _, none => some (.removed k)
    | some a, some b => if a = b then none else some (.modified k)
    | none, none => none)

/-- Diff of two trees (Diff Engine, section 4.2). -/
def diffTrees (fromTree toTree : Tree) : List Change :=
  diffFileLists fromTree.files toTree.files

/-- Errors of the embedded operations, following the taxonomy of section 7 of
the spec; `statusError` stands for an uncompensated store error surfacing
from a mid-operation call. -/
inductive Err where
  | validationError
  | notFoundError
  | nothingToCommit
  | pathOutsideRepo
  | statusError
  deriving DecidableEq

/-- The commit metadata record built by `StageAPI.commit`. -/
structure CommitMeta where
  message : String
  author : Option String
  timestamp : String
  is_merge : Bool
  is_replay : Bool
  deriving DecidableEq

/-- Modelled from the spec: serialization of the commit metadata record
(`json.dumps` in the source); the exact format is immaterial here. -/
def encodeMeta (m : CommitMeta) : String :=
  String.intercalate "," [m.message, m.author.getD "", m.timestamp,
    toString m.is_merge, toString m.is_replay]

/-- Modelled from the spec: the Path Resolver maps the logical reference of a
ref tree to its versioned-files subtree `<ref>/bundle/files` (persisted
layout of section 6; `status()` diffs `head/bundle/files` against
`stage/bundle/files`). -/
def refFilesPath (r : String) : List String := [r, "bundle", "files"]

/-- Modelled from the spec: `_diff_changes(@toRef, @fromRef)` of `common.py`,
which is not under the sources at hand — the Diff Engine comparison of the
two ref trees' versioned files (sections 4.2 and 4.3); an absent files tree
diffs as an empty directory. -/
def diff_changes (repo : Tree) (branch toRef fromRef : String) : List Change :=
  diffTrees ((repo.get (branch :: refFilesPath fromRef)).getD (.dir .nil))
    ((repo.get (branch :: refFilesPath toRef)).getD (.dir .nil))

/-- Split a character list into path components at slashes. -/
def splitSlash : List Char → List Char → List String
  | [], acc => [String.mk acc]
  | '/' :: rest, acc => String.mk acc :: splitSlash rest []
  | c :: rest, acc => splitSlash rest (acc ++ [c])

/-- Modelled from the spec: `expand_ref` of `common.py` — the Path Resolver
(section 2) maps a logical reference `@x` to the store path of `x` within
the branch. -/
def expand_ref (r : String) : List String :=
  splitSlash (match r.toList with
    | '@' :: rest => rest
    | l => l) []

/-- Remove a sequence of paths in order, stopping at the first failure
(each `files_rm` raises when its path is absent). -/
def rmSeq : Tree → List (List String) → Tree × Option Err
  | t, [] => (t, none)
  | t, p :: rest =>
    match t.rmPath p with
    | none => (t, some .statusError)
    | some t2 => rmSeq t2 rest

/-- The merge-commit step of `StageAPI.commit` (stage.py lines 192-205):
copy the branch-level merge marker into the new head as its `merge_parent`
link, then remove the marker and the three backup refs in order (each
`files_rm` raises when its path is absent). -/
def mergeStep (r3 : Tree) (branch : String) : Tree × Option Err :=
  match r3.get [branch, "merge_parent"] with
  | none => (r3, some Err.statusError)
  | some mp =>
    match r3.setPath [branch, "head", "merge_parent"] mp with
    | none => (r3, some Err.statusError)
    | some r4 =>
      rmSeq r4 [[branch, "merge_parent"], [branch, "merge_head"],
        [branch, "merge_stage"], [branch, "merge_workspace"]]

/-- Embedding of `StageAPI.commit` (stage.py).  The interactive-editor
branch (`message is None` with no metadata supplied) invokes an external
text editor, out of scope per section 1 of the spec, so the embedding takes
the commit message as given; `author` models the global `author` parameter
and `now` the wall-clock reading, both external inputs.  Per the spec
(sections 5, 7, 9) the `atomic` wrapper of `common.py` is an exclusive lock
without rollback, so the store state is returned on every exit path. -/
def StageAPI.commit (repo : Tree) (branch : String) (message : String)
    (commit_metadata : Option CommitMeta) (author : Option String)
    (now : String) : Tree × Except Err Tree :=
  let is_merge := (repo.get [branch, "merge_parent"]).isSome
  let is_replay := (repo.get [branch, "replay_offset"]).isSome
  let changes := diff_changes repo branch "stage" "head"
  if !(is_merge || is_replay) && changes.isEmpty then
    (repo, .error .nothingToCommit)
  else
    let metaRes : Except Err CommitMeta :=
      match commit_metadata with
      | some md => .ok md
      | none =>
        if message.length = 0 then .error .validationError
        else .ok { message := message, author := author, timestamp := now,
                   is_merge := is_merge, is_replay := is_replay }
    match metaRes with
    | .error e => (repo, .error e)
    | .ok meta =>
      match repo.get [branch, "head"], repo.get [branch, "stage"] with
      | some head_hash, some stage_hash =>
        if head_hash = stage_hash then (repo, .error .nothingToCommit)
        else
          let r1 := (repo.rmPath [branch, "head"]).getD repo
          match r1.setPath [branch, "head"] stage_hash with
          | none => (r1, .error .statusError)
          | some r2 =>
            match r2.setPath [branch, "head", "parent"] head_hash with
            | none => (r2, .error .statusError)
            | some r3 =>
              match
                (if is_merge && !is_replay then mergeStep r3 branch
                else (r3, none))
              with
              | (r5, some e) => (r5, .error e)
              | (r5, none) =>
                match r5.setPath [branch, "head", "commit_metadata"]
                    (.file (encodeMeta meta)) with
                | none => (r5, .error .statusError)
                | some r6 =>
                  match r6.get [branch, "head"] with
                  | some h => (r6, .ok h)
                  | none => (r6, .error .statusError)
      | _, _ => (repo, .error .statusError)

/-- Validity of a branch name, `name.replace('_', '').isalnum()` in the
source: nonempty and alphanumeric once underscores are removed. -/
def isValidName (name : String) : Bool :=
  let s := name.toList.filter (fun c => c ≠ '_')
  !s.isEmpty && s.all Char.isAlphanum

/-- Embedding of `BranchAPI.create` (branch.py).  `active` is the current
branch (obtained through `self.common()`).  Checking the new branch out only
writes the active-branch pointer within the store model; the filesystem
synchronisation it also performs is outside the store.  Returns the store
state and the error, if any. -/
def BranchAPI.create (repo : Tree) (active name from_commit : String)
    (no_checkout : Bool) : Tree × Option Err :=
  if !(isValidName name) then (repo, some .validationError)
  else if name = "head" || name = "workspace" || name = "stage" then
    (repo, some .validationError)
  else if (repo.get [name]).isSome then (repo, some .validationError)
  else
    let step : Tree × Option Err :=
      if from_commit = "@head" then
        match repo.get [active] with
        | none => (repo, some .statusError)
        | some b =>
          match repo.setPath [name] b with
          | none => (repo, some .statusError)
          | some r => (r, none)
      else
        match repo.mkdirp [name, "stage"] with
        | none => (repo, some .statusError)
        | some r1 =>
          match r1.mkdirp [name, "workspace"] with
          | none => (r1, some .statusError)
          | some r2 =>
            match r2.get (active :: expand_ref from_commit) with
            | none => (r2, some .notFoundError)
            | some commitObj =>
              match r2.setPath [name, "head"] commitObj with
              | none => (r2, some .statusError)
              | some r3 =>
                match r3.get (active :: expand_ref from_commit ++ ["bundle"]) with
                | none => (r3, some .statusError)
                | some bundle =>
                  match r3.setPath [name, "workspace", "bundle"] bundle with
                  | none => (r3, some .statusError)
                  | some r4 =>
                    match r4.setPath [name, "stage", "bundle"] bundle with
                    | none => (r4, some .statusError)
                    | some r5 => (r5, none)
    match step with
    | (r, some e) => (r, some e)
    | (r, none) =>
      if no_checkout then (r, none)
      else
        match r.setPath ["active_branch_name"] (.file name) with
        | none => (r, some .statusError)
        | some r2 => (r2, none)

mutual

/-- Size of a tree, the bound for the history walk. -/
def Tree.size : Tree → Nat
  | .file _ => 1
  | .dir es => es.size + 1

/-- Size of an entry list. -/
def Entries.size : Entries → Nat
  | .nil => 0
  | .cons _ t rest => t.size + rest.size + 1

end

/-- A directory entry found by name is smaller than the directory holding
it. -/
theorem Entries.find_size {es : Entries} {n : String} {c : Tree}
    (h : es.find n = some c) : c.size < (Tree.dir es).size := by
  match es with
  | .nil => simp [Entries.find] at h
  | .cons m t rest =>
    simp only [Entries.find] at h
    split at h
    · cases h; simp [Tree.size, Entries.size]; omega
    · have := Entries.find_size h
      simp [Tree.size, Entries.size] at this ⊢
      omega

/-- The object behind a commit's link is smaller than the commit object. -/
theorem Tree.get_single_size {t c : Tree} {n : String}
    (h : t.get [n] = some c) : c.size < t.size := by
  match t with
  | .file _ => simp [Tree.get] at h
  | .dir es =>
    simp only [Tree.get] at h
    split at h
    · next c2 hf =>
      cases h
      exact Entries.find_size hf
    · cases h

/-- Embedding of the `while True` loop of `BranchAPI.history` (branch.py),
with an explicit recursion bound (`Ipvc.historyWalkF_isSome` shows a bound of
the size of the starting object always suffices, so the loop terminates and
the bound never shows in the value): `commitObj` is the object behind the
current commit hash.  The first stat of `bundle/files` is unguarded in the
source, so its failure surfaces as an error; a failing read of `metadata` or
`parent1` is caught and ends the walk ("reached the root of the graph").
The `json.loads` of a present `metadata` file is modelled as succeeding (its
fields are only printed). -/
def historyWalkF : Nat → Tree → Option (Except Err (List Tree))
  | 0, _ => none
  | fuel + 1, commitObj =>
    match commitObj.get ["bundle", "files"] with
    | none => some (.error .statusError)
    | some _ =>
      match commitObj.getFile ["metadata"] with
      | none => some (.ok [])
      | some _ =>
        match commitObj.get ["parent1"] with
        | none => some (.ok [commitObj])
        | some next =>
          match historyWalkF fuel next with
          | some (.ok l) => some (.ok (commitObj :: l))
          | some (.error e) => some (.error e)
          | none => none

/-- The walk of `BranchAPI.history`, run with the always-sufficient bound. -/
def historyWalk (commitObj : Tree) : Except Err (List Tree) :=
  (historyWalkF (commitObj.size + 1) commitObj).getD (.error .statusError)

/-- The recursion bound of `Ipvc.historyWalkF` is never exhausted once it
exceeds the size of the walked object: the history loop always terminates,
because each `parent1` link leads strictly inside the current object. -/
theorem historyWalkF_isSome {fuel : Nat} {t : Tree} (h : t.size < fuel) :
    (historyWalkF fuel t).isSome := by
  match fuel with
  | 0 => omega
  | fuel + 1 =>
    simp only [historyWalkF]
    split
    · simp
    · split
      · simp
      · split
        · simp
        · next next hnext =>
          have hlt : next.size < t.size := Tree.get_single_size hnext
          have : (historyWalkF fuel next).isSome :=
            historyWalkF_isSome (by omega)
          match hw : historyWalkF fuel next with
          | some (.ok l) => simp
          | some (.error e) => simp
          | none => rw [hw] at this; simp at this

/-- Embedding of `BranchAPI.history` (branch.py): read the hash of the
active branch's head, then walk the commit graph backwards. -/
def BranchAPI.history (repo : Tree) (branch : String) :
    Except Err (List Tree) :=
  match repo.get [branch, "head"] with
  | none => .error .statusError
  | some h => historyWalk h

/-- Test whether the first list is a prefix of the second. -/
def isPre : List String → List String → Bool
  | [], _ => true
  | _ :: _, [] => false
  | a :: xs, b :: ys => a = b && isPre xs ys

/-- Python's `pathlib.Path.relative_to`, the library call made by
`StageAPI._get_relative_paths` (stage.py lines 18-27) on each path: the
path of `p` relative to `root` when `root` is a prefix of it, and failure
otherwise — the `ValueError` the source catches, reports as the path being
outside the repository, and re-raises.  Paths are component lists, and
`os.path.abspath` is the identity on the absolute paths the embedding
takes as input. -/
def relativeTo (root p : List String) : Option (List String) :=
  if isPre root p then some (p.drop root.length) else none

/-- Modelled from the spec: `add_ref_changes_to_ref` of `common.py`, which is
not under the sources at hand — section 4.3: diff the `fromRef` tree against
the `toRef` tree restricted to the given relative path's subtree, and copy
the changed subtree from `fromRef` into `toRef`; when nothing changed the
store is left as is.  Returns the new store state and the change list. -/
def add_ref_changes_to_ref (repo : Tree) (branch fromRef toRef : String)
    (rel : List String) : Tree × List Change :=
  let fromT := repo.get ((branch :: refFilesPath fromRef) ++ rel)
  let toT := repo.get ((branch :: refFilesPath toRef) ++ rel)
  let changes := diffTrees (toT.getD (.dir .nil)) (fromT.getD (.dir .nil))
  if changes.isEmpty then (repo, changes)
  else
    match fromT with
    | some sub =>
      match repo.setp ((branch :: refFilesPath toRef) ++ rel) sub with
      | some r => (r, changes)
      | none => (repo, changes)
    | none =>
      match repo.rmPath ((branch :: refFilesPath toRef) ++ rel) with
      | some r => (r, changes)
      | none => (repo, changes)

/-- The `for fs_path_relative in self._get_relative_paths(...)` loop of
`StageAPI.add` (stage.py), with the generator body of
`StageAPI._get_relative_paths` (stage.py lines 18-27) inlined at its
consumption site: each iteration resolves the next path with `relativeTo`
and raises `PathOutsideRepoError` when it does not resolve under the root.
The generator is consumed lazily, so the paths placed before a failing one
have already been staged when the failure surfaces, and the loop raises
there with the store as mutated so far. -/
def stageAddLoop (branch : String) (root : List String) :
    Tree → List (List String) → List Change → Tree × Except Err (List Change)
  | repo, [], acc => (repo, .ok acc)
  | repo, p :: rest, acc =>
    match relativeTo root p with
    | none => (repo, .error .pathOutsideRepo)
    | some rel =>
      let out := add_ref_changes_to_ref repo branch "workspace" "stage" rel
      stageAddLoop branch root out.1 rest (acc ++ out.2)

/-- Embedding of `StageAPI.add` (stage.py); `root` is the repository root
and `fs_paths` are absolute filesystem paths. -/
def StageAPI.add (repo : Tree) (branch : String) (root : List String)
    (fs_paths : List (List String)) : Tree × Except Err (List Change) :=
  stageAddLoop branch root repo fs_paths []

/-- Looking up after a replacement: the replaced name answers the new value,
every other name is untouched. -/
theorem Entries.find_set (es : Entries) (n : String) (v : Tree) (m : String) :
    (es.set n v).find m = if n = m then some v else es.find m := by
  match es with
  | .nil =>
    simp only [Entries.set, Entries.find]
  | .cons k t rest =>
    simp only [Entries.set]
    by_cases hkn : k = n
    · rw [if_pos hkn]
      simp only [Entries.find, hkn]
      by_cases hnm : n = m
      · simp [hnm]
      · simp [hnm]
    · rw [if_neg hkn]
      simp only [Entries.find]
      by_cases hkm : k = m
      · rw [if_pos hkm, if_pos hkm]
        have hnm : ¬n = m := fun h => hkn (hkm.trans h.symm)
        rw [if_neg hnm]
      · rw [if_neg hkm, if_neg hkm]
        exact Entries.find_set rest n v m

/-- Looking up after a removal: the removed name is gone, every other name
is untouched. -/
theorem Entries.find_remove (es : Entries) (n m : String) :
    (es.remove n).find m = if n = m then none else es.find m := by
  match es with
  | .nil =>
    simp only [Entries.remove, Entries.find]
    split <;> rfl
  | .cons k t rest =>
    simp only [Entries.remove]
    by_cases hkn : k = n
    · rw [if_pos hkn, Entries.find_remove rest n m]
      simp only [Entries.find, hkn]
      by_cases hnm : n = m
      · simp [hnm]
      · simp [hnm]
    · rw [if_neg hkn]
      simp only [Entries.find]
      by_cases hkm : k = m
      · rw [if_pos hkm, if_pos hkm]
        have hnm : ¬n = m := fun h => hkn (hkm.trans h.symm)
        rw [if_neg hnm]
      · rw [if_neg hkm, if_neg hkm]
        exact Entries.find_remove rest n m

/-- Resolving the empty path answers the tree itself. -/
theorem Tree.get_nil (t : Tree) : t.get [] = some t := by
  match t with
  | .file _ => rfl
  | .dir _ => rfl

/-- Resolution of a nonempty path on a directory steps through the entry
list. -/
theorem Tree.get_cons (es : Entries) (n : String) (p : List String) :
    (Tree.dir es).get (n :: p) = (es.find n).bind (fun c => c.get p) := by
  simp only [Tree.get]
  match es.find n with
  | some c => rfl
  | none => rfl

/-- Resolution distributes over path concatenation. -/
theorem Tree.get_append (t : Tree) (p q : List String) :
    t.get (p ++ q) = (t.get p).bind (fun s => s.get q) := by
  match p with
  | [] => simp [Tree.get_nil]
  | n :: p2 =>
    match t with
    | .file _ => simp [Tree.get]
    | .dir es =>
      rw [List.cons_append, Tree.get_cons, Tree.get_cons]
      match es.find n with
      | some c =>
        simp only [Option.some_bind]
        exact Tree.get_append c p2 q
      | none => simp

/-- Two paths diverge when they differ at a position both of them reach. -/
def diverge : List String → List String → Bool
  | a :: p, b :: q => if a = b then diverge p q else true
  | _, _ => false

/-- Nothing diverges from the empty path. -/
theorem diverge_nil (p : List String) : diverge p [] = false := by
  match p with
  | [] => rfl
  | a :: p2 => rfl

/-- A write at a path leaves resolution along any diverging path unchanged. -/
theorem Tree.setPath_get_diverge {t t2 v : Tree} {p q : List String}
    (hd : diverge p q = true) (hs : t.setPath p v = some t2) :
    t2.get q = t.get q := by
  match p, t with
  | [], _ => simp [diverge] at hd
  | _ :: _, .file _ => simp [Tree.setPath] at hs
  | [n], .dir es =>
    simp only [Tree.setPath, Option.some.injEq] at hs
    subst hs
    match q, hd with
    | b :: q2, hd2 =>
      simp only [diverge] at hd2
      by_cases hnb : n = b
      · rw [if_pos hnb] at hd2
        simp [diverge] at hd2
      · rw [Tree.get_cons, Tree.get_cons, Entries.find_set, if_neg hnb]
  | n :: m :: p2, .dir es =>
    simp only [Tree.setPath] at hs
    match hf : es.find n with
    | none =>
      rw [hf] at hs
      simp at hs
    | some c =>
      rw [hf] at hs
      simp only [Option.map_eq_some'] at hs
      obtain ⟨c2, hc2, ht2⟩ := hs
      subst ht2
      match q, hd with
      | b :: q2, hd2 =>
        rw [Tree.get_cons, Tree.get_cons, Entries.find_set]
        by_cases hnb : n = b
        · rw [if_pos hnb]
          rw [← hnb, hf]
          simp only [diverge, if_pos hnb] at hd2
          simp only [Option.some_bind]
          exact Tree.setPath_get_diverge hd2 hc2
        · rw [if_neg hnb]

/-- A removal at a path leaves resolution along any diverging path
unchanged. -/
theorem Tree.rmPath_get_diverge {t t2 : Tree} {p q : List String}
    (hd : diverge p q = true) (hs : t.rmPath p = some t2) :
    t2.get q = t.get q := by
  match p, t with
  | [], _ => simp [diverge] at hd
  | _ :: _, .file _ => simp [Tree.rmPath] at hs
  | [n], .dir es =>
    simp only [Tree.rmPath] at hs
    split at hs
    · simp only [Option.some.injEq] at hs
      subst hs
      match q, hd with
      | b :: q2, hd2 =>
        simp only [diverge] at hd2
        by_cases hnb : n = b
        · rw [if_pos hnb] at hd2
          simp [diverge] at hd2
        · rw [Tree.get_cons, Tree.get_cons, Entries.find_remove, if_neg hnb]
    · cases hs
  | n :: m :: p2, .dir es =>
    simp only [Tree.rmPath] at hs
    match hf : es.find n with
    | none =>
      rw [hf] at hs
      simp at hs
    | some c =>
      rw [hf] at hs
      simp only [Option.map_eq_some'] at hs
      obtain ⟨c2, hc2, ht2⟩ := hs
      subst ht2
      match q, hd with
      | b :: q2, hd2 =>
        rw [Tree.get_cons, Tree.get_cons, Entries.find_set]
        by_cases hnb : n = b
        · rw [if_pos hnb]
          rw [← hnb, hf]
          simp only [diverge, if_pos hnb] at hd2
          simp only [Option.some_bind]
          exact Tree.rmPath_get_diverge hd2 hc2
        · rw [if_neg hnb]

/-- A directory creation leaves resolution along any diverging path
unchanged. -/
theorem Tree.mkdirp_get_diverge {t t2 : Tree} {p q : List String}
    (hd : diverge p q = true) (hs : t.mkdirp p = some t2) :
    t2.get q = t.get q := by
  match p, t with
  | [], _ => simp [diverge] at hd
  | _ :: _, .file _ => simp [Tree.mkdirp] at hs
  | n :: p2, .dir es =>
    simp only [Tree.mkdirp] at hs
    match q, hd with
    | b :: q2, hd2 =>
      simp only [diverge] at hd2
      match hf : es.find n with
      | some c =>
        rw [hf] at hs
        simp only [Option.map_eq_some'] at hs
        obtain ⟨c2, hc2, ht2⟩ := hs
        subst ht2
        rw [Tree.get_cons, Tree.get_cons, Entries.find_set]
        by_cases hnb : n = b
        · rw [if_pos hnb]
          rw [← hnb, hf]
          rw [if_pos hnb] at hd2
          simp only [Option.some_bind]
          exact Tree.mkdirp_get_diverge hd2 hc2
        · rw [if_neg hnb]
      | none =>
        rw [hf] at hs
        simp only [Option.map_eq_some'] at hs
        obtain ⟨c2, hc2, ht2⟩ := hs
        subst ht2
        rw [Tree.get_cons, Tree.get_cons, Entries.find_set]
        by_cases hnb : n = b
        · rw [if_pos hnb]
          rw [← hnb, hf]
          rw [if_pos hnb] at hd2
          simp only [Option.some_bind, Option.none_bind]
          rw [Tree.mkdirp_get_diverge hd2 hc2]
          match q2, hd2 with
          | [], hx =>
            rw [diverge_nil] at hx
            cases hx
          | x :: q3, _ =>
            rw [Tree.get_cons]
            simp [Entries.find]
        · rw [if_neg hnb]

/-- A write at a path makes that path resolve to the written value. -/
theorem Tree.setPath_get_self {t t2 v : Tree} {p : List String}
    (hs : t.setPath p v = some t2) : t2.get p = some v := by
  match p, t with
  | [], _ =>
    simp only [Tree.setPath, Option.some.injEq] at hs
    subst hs
    exact Tree.get_nil v
  | _ :: _, .file _ => simp [Tree.setPath] at hs
  | [n], .dir es =>
    simp only [Tree.setPath, Option.some.injEq] at hs
    subst hs
    rw [Tree.get_cons, Entries.find_set, if_pos rfl]
    simp [Tree.get_nil]
  | n :: m :: p2, .dir es =>
    simp only [Tree.setPath] at hs
    match hf : es.find n with
    | none =>
      rw [hf] at hs
      simp at hs
    | some c =>
      rw [hf] at hs
      simp only [Option.map_eq_some'] at hs
      obtain ⟨c2, hc2, ht2⟩ := hs
      subst ht2
      rw [Tree.get_cons, Entries.find_set, if_pos rfl]
      simp only [Option.some_bind]
      exact Tree.setPath_get_self hc2

/-- A removal at a path makes that path unresolvable. -/
theorem Tree.rmPath_get_self {t t2 : Tree} {p : List String}
    (hs : t.rmPath p = some t2) : t2.get p = none := by
  match p, t with
  | [], _ => simp [Tree.rmPath] at hs
  | _ :: _, .file _ => simp [Tree.rmPath] at hs
  | [n], .dir es =>
    simp only [Tree.rmPath] at hs
    split at hs
    · simp only [Option.some.injEq] at hs
      subst hs
      rw [Tree.get_cons, Entries.find_remove, if_pos rfl]
      rfl
    · cases hs
  | n :: m :: p2, .dir es =>
    simp only [Tree.rmPath] at hs
    match hf : es.find n with
    | none =>
      rw [hf] at hs
      simp at hs
    | some c =>
      rw [hf] at hs
      simp only [Option.map_eq_some'] at hs
      obtain ⟨c2, hc2, ht2⟩ := hs
      subst ht2
      rw [Tree.get_cons, Entries.find_set, if_pos rfl]
      simp only [Option.some_bind]
      exact Tree.rmPath_get_self hc2

/-- A directory creation makes the path resolvable. -/
theorem Tree.mkdirp_get_isSome {t t2 : Tree} {p : List String}
    (hs : t.mkdirp p = some t2) : (t2.get p).isSome := by
  match p, t with
  | [], _ =>
    simp only [Tree.mkdirp, Option.some.injEq] at hs
    subst hs
    simp [Tree.get_nil]
  | _ :: _, .file _ => simp [Tree.mkdirp] at hs
  | n :: p2, .dir es =>
    simp only [Tree.mkdirp] at hs
    match hf : es.find n with
    | some c =>
      rw [hf] at hs
      simp only [Option.map_eq_some'] at hs
      obtain ⟨c2, hc2, ht2⟩ := hs
      subst ht2
      rw [Tree.get_cons, Entries.find_set, if_pos rfl]
      simp only [Option.some_bind]
      exact Tree.mkdirp_get_isSome hc2
    | none =>
      rw [hf] at hs
      simp only [Option.map_eq_some'] at hs
      obtain ⟨c2, hc2, ht2⟩ := hs
      subst ht2
      rw [Tree.get_cons, Entries.find_set, if_pos rfl]
      simp only [Option.some_bind]
      exact Tree.mkdirp_get_isSome hc2

/-- Ignoring a failed removal leaves resolution along a diverging path
unchanged. -/
theorem rmIgnore_get_diverge {t : Tree} {p q : List String}
    (hd : diverge p q = true) :
    ((t.rmPath p).getD t).get q = t.get q := by
  match hr : t.rmPath p with
  | some t2 =>
    simp only [hr, Option.getD_some]
    exact Tree.rmPath_get_diverge hd hr
  | none => simp [hr]

/-- Divergence is preserved under a shared leading component. -/
theorem diverge_cons_same (a : String) (p q : List String)
    (h : diverge p q = true) : diverge (a :: p) (a :: q) = true := by
  simp [diverge, h]

/-- A successful removal sequence performs each removal in order. -/
theorem rmSeq_ok_cons {t t2 : Tree} {p : List String} {ps : List (List String)}
    (h : rmSeq t (p :: ps) = (t2, none)) :
    ∃ t1, t.rmPath p = some t1 ∧ rmSeq t1 ps = (t2, none) := by
  simp only [rmSeq] at h
  match hr : t.rmPath p with
  | none =>
    rw [hr] at h
    simp at h
  | some t1 =>
    rw [hr] at h
    exact ⟨t1, rfl, h⟩

/-- An empty removal sequence does nothing. -/
theorem rmSeq_nil_ok {t t2 : Tree} (h : rmSeq t [] = (t2, none)) : t = t2 := by
  simp only [rmSeq, Prod.mk.injEq] at h
  exact h.1

/-- A successful merge step resolves the marker, links it into the head and
removes the marker and the backups, in the order of the source. -/
theorem mergeStep_ok {r3 rD : Tree} {b : String}
    (h : mergeStep r3 b = (rD, none)) :
    ∃ mp r4, r3.get [b, "merge_parent"] = some mp ∧
      r3.setPath [b, "head", "merge_parent"] mp = some r4 ∧
      rmSeq r4 [[b, "merge_parent"], [b, "merge_head"],
        [b, "merge_stage"], [b, "merge_workspace"]] = (rD, none) := by
  unfold mergeStep at h
  split at h
  · simp at h
  · next mp hm =>
    split at h
    · simp at h
    · next r4 hs => exact ⟨mp, r4, hm, hs, h⟩

/-- Diffing a file listing against itself yields no changes. -/
theorem diffFileLists_self (l : List (List String × String)) :
    diffFileLists l l = [] := by
  unfold diffFileLists
  rw [List.filterMap_eq_nil_iff]
  intro k _
  match lookupFileList l k with
  | some a => simp
  | none => simp

/-- Diffing a tree against itself yields no changes (Diff Engine
reflexivity, section 8 of the spec). -/
theorem diffTrees_self (t : Tree) : diffTrees t t = [] :=
  diffFileLists_self t.files

/-- A successful commit leaves the new head resolvable at the returned
hash: `commit` returns `files_stat(head).Hash` of the final state. -/
theorem commit_ok_head {repo r2 h2 : Tree} {b m : String} {md : Option CommitMeta}
    {a : Option String} {now : String}
    (hc : StageAPI.commit repo b m md a now = (r2, .ok h2)) :
    r2.get [b, "head"] = some h2 := by
  simp only [StageAPI.commit] at hc
  repeat' split at hc
  all_goals try (exfalso; simp_all; done)
  all_goals
    simp only [Prod.mk.injEq, Except.ok.injEq] at hc
    obtain ⟨h1e, h2e⟩ := hc
    subst h1e
    subst h2e
    assumption

/-- Run analysis of a successful non-merge commit: the sequence of store
mutations it performs, step by step. -/
theorem commit_ok_run_plain {repo r2 h2 : Tree} {b m : String} {md : Option CommitMeta}
    {a : Option String} {now : String}
    (hmr : ((repo.get [b, "merge_parent"]).isSome &&
      !(repo.get [b, "replay_offset"]).isSome) = false)
    (hc : StageAPI.commit repo b m md a now = (r2, .ok h2)) :
    ∃ meta H S rB rC,
      repo.get [b, "head"] = some H ∧
      repo.get [b, "stage"] = some S ∧
      ((repo.rmPath [b, "head"]).getD repo).setPath [b, "head"] S = some rB ∧
      rB.setPath [b, "head", "parent"] H = some rC ∧
      rC.setPath [b, "head", "commit_metadata"] (Tree.file (encodeMeta meta)) = some r2 ∧
      r2.get [b, "head"] = some h2 := by
  simp only [StageAPI.commit] at hc
  rw [hmr] at hc
  simp only [Bool.false_eq_true, if_false] at hc
  repeat' split at hc
  all_goals try (exfalso; simp_all; done)
  all_goals
    simp only [Prod.mk.injEq, Except.ok.injEq] at hc
    obtain ⟨h1e, h2e⟩ := hc
    subst h1e
    subst h2e
    exact ⟨_, _, _, _, _, by assumption, by assumption, by assumption, by assumption,
      by assumption, by assumption⟩

/-- Run analysis of a successful merge (non-replay) commit: as the plain
run, with the merge step between the parent link and the metadata write. -/
theorem commit_ok_run_merge {repo r2 h2 : Tree} {b m : String} {md : Option CommitMeta}
    {a : Option String} {now : String}
    (hmr : ((repo.get [b, "merge_parent"]).isSome &&
      !(repo.get [b, "replay_offset"]).isSome) = true)
    (hc : StageAPI.commit repo b m md a now = (r2, .ok h2)) :
    ∃ meta H S rB rC rD,
      repo.get [b, "head"] = some H ∧
      repo.get [b, "stage"] = some S ∧
      ((repo.rmPath [b, "head"]).getD repo).setPath [b, "head"] S = some rB ∧
      rB.setPath [b, "head", "parent"] H = some rC ∧
      mergeStep rC b = (rD, none) ∧
      rD.setPath [b, "head", "commit_metadata"] (Tree.file (encodeMeta meta)) = some r2 ∧
      r2.get [b, "head"] = some h2 := by
  simp only [StageAPI.commit] at hc
  rw [hmr] at hc
  simp only [eq_self_iff_true, if_true] at hc
  repeat' split at hc
  all_goals try (exfalso; simp_all; done)
  all_goals
    simp only [Prod.mk.injEq, Except.ok.injEq] at hc
    obtain ⟨h1e, h2e⟩ := hc
    subst h1e
    subst h2e
    exact ⟨_, _, _, _, _, _, by assumption, by assumption, by assumption,
      by assumption, by assumption, by assumption, by assumption⟩

/-- A removal sequence whose paths all diverge from a query path leaves the
query's resolution unchanged. -/
theorem rmSeq_get_diverge {t t2 : Tree} {ps : List (List String)} {q : List String}
    (hall : ∀ p ∈ ps, diverge p q = true)
    (h : rmSeq t ps = (t2, none)) : t2.get q = t.get q := by
  match ps with
  | [] => rw [← rmSeq_nil_ok h]
  | p :: rest =>
    obtain ⟨t1, hrm, hrest⟩ := rmSeq_ok_cons h
    rw [rmSeq_get_diverge (fun x hx => hall x (by simp [hx])) hrest,
      Tree.rmPath_get_diverge (hall p (by simp)) hrm]

/-- The merge step only touches the head's `merge_parent` link and the
branch-level merge marker and backups: anything diverging from those is
untouched. -/
theorem mergeStep_get_diverge {r3 rD : Tree} {b : String} {q : List String}
    (h : mergeStep r3 b = (rD, none))
    (h1 : diverge [b, "head", "merge_parent"] q = true)
    (h2 : diverge [b, "merge_parent"] q = true)
    (h3 : diverge [b, "merge_head"] q = true)
    (h4 : diverge [b, "merge_stage"] q = true)
    (h5 : diverge [b, "merge_workspace"] q = true) :
    rD.get q = r3.get q := by
  obtain ⟨mp, r4, hmp, hset, hrm⟩ := mergeStep_ok h
  have hall : ∀ p ∈ [[b, "merge_parent"], [b, "merge_head"],
      [b, "merge_stage"], [b, "merge_workspace"]], diverge p q = true := by
    intro p hp
    simp only [List.mem_cons, List.not_mem_nil, or_false] at hp
    rcases hp with h | h | h | h <;> subst h <;> assumption
  rw [rmSeq_get_diverge hall hrm, Tree.setPath_get_diverge h1 hset]

/-- A ref tree (`head`, `stage` or `workspace`) holding the given files
under `bundle/files`. -/
def refTree (l : List (String × Tree)) : Tree :=
  .dir (.cons "bundle" (.dir (.cons "files" (.dir (Entries.ofList l)) .nil)) .nil)

/-- A concrete repository with a single branch `master`: an empty committed
tree at `head`, the file `foo` with content `a` staged and in the
workspace, no merge or replay markers. -/
def repoA : Tree :=
  .dir (.cons "master" (.dir (Entries.ofList
    [("head", refTree []),
     ("stage", refTree [("foo", .file "a")]),
     ("workspace", refTree [("foo", .file "a")])])) .nil)

/-- First commit on `repoA`. -/
def commitA1 : Tree × Except Err Tree :=
  StageAPI.commit repoA "master" "init" none none "t1"

/-- Store state after the first commit. -/
def repoA1 : Tree := commitA1.1

/-- Hash returned by the first commit. -/
def hashA1 : Tree :=
  match commitA1.2 with
  | .ok h => h
  | .error _ => .file ""

/-- State after the first commit with `foo` re-staged with content `b`
(the effect of editing the workspace and running `stage.add`). -/
def repoA1b : Tree :=
  (repoA1.setPath ["master", "stage", "bundle", "files", "foo"]
    (.file "b")).getD repoA1

/-- Second commit. -/
def commitA2 : Tree × Except Err Tree :=
  StageAPI.commit repoA1b "master" "update" none none "t2"

/-- Store state after the second commit. -/
def repoA2 : Tree := commitA2.1

/-- Hash returned by the second commit. -/
def hashA2 : Tree :=
  match commitA2.2 with
  | .ok h => h
  | .error _ => .file ""

/-- C1: after two sequential successful commits H1 then H2 on `master`,
`history()` returns `[]` and not `[H2, H1]`, although the parent chain
exists: `commit` writes the links `parent` and `commit_metadata` into the
new head (stage.py lines 190 and 210) while `history` walks `parent1` and
reads `metadata` (branch.py lines 148 and 164), so the very first read of
`metadata` fails and the walk stops before recording any commit. -/
theorem claimC1_history_after_two_commits :
    commitA1.2 = .ok hashA1 ∧
    commitA2.2 = .ok hashA2 ∧
    hashA2.get ["parent"] = some hashA1 ∧
    hashA2.getFile ["metadata"] = none ∧
    hashA2.get ["parent1"] = none ∧
    BranchAPI.history repoA2 "master" = .ok [] := by
  decide

/-- C2: on a repository whose branch has exactly one (root) commit the
history walk terminates (the embedded walk is total, and
`Ipvc.historyWalkF_isSome` bounds the source loop) but returns `[]` — zero
entries, not one — for the reason recorded at C1: the new head holds
`commit_metadata` and `parent`, while the walk reads `metadata`. -/
theorem claimC2_history_single_commit :
    commitA1.2 = .ok hashA1 ∧
    hashA1.getFile ["metadata"] = none ∧
    BranchAPI.history repoA1 "master" = .ok [] := by
  decide

/-- Creating a branch `feature` from the unresolvable commit ref `@nope`. -/
def createC3 : Tree × Option Err :=
  BranchAPI.create repoA "master" "feature" "@nope" true

/-- C3 counterexample: `create` with an unresolvable `fromRef` does fail
with `NotFoundError`, but the store is not left untouched: the new branch's
empty `stage` and `workspace` trees were created before the commit was
resolved (branch.py lines 52-69 run the mkdir loop before the existence
check) and they remain in the store. -/
theorem claimC3_counterexample :
    createC3.2 = some Err.notFoundError ∧
    repoA.get ["feature", "stage"] = none ∧
    repoA.get ["feature", "workspace"] = none ∧
    createC3.1.get ["feature", "stage"] = some (.dir .nil) ∧
    createC3.1.get ["feature", "workspace"] = some (.dir .nil) ∧
    createC3.1.get ["feature", "head"] = none := by
  decide

/-- A concrete repository for staging: `foo` present in the workspace and
absent from the stage. -/
def repoAdd : Tree :=
  .dir (.cons "master" (.dir (Entries.ofList
    [("head", refTree []),
     ("stage", refTree []),
     ("workspace", refTree [("foo", .file "a")])])) .nil)

/-- `add` on `repoAdd` with a staged-able first path and a second path
outside the repository root. -/
def addC8 : Tree × Except Err (List Change) :=
  StageAPI.add repoAdd "master" ["repo"] [["repo", "foo"], ["outside", "bar"]]

/-- C8 counterexample: when the second path of the list is outside the
repository root, `add` does fail with `PathOutsideRepoError`, but the first
path has already been copied into the stage when the failure surfaces: the
path generator of `_get_relative_paths` is consumed lazily, interleaved
with the staging mutations. -/
theorem claimC8_counterexample :
    addC8.2 = .error Err.pathOutsideRepo ∧
    repoAdd.get ["master", "stage", "bundle", "files", "foo"] = none ∧
    addC8.1.get ["master", "stage", "bundle", "files", "foo"] =
      some (.file "a") := by
  decide

/-- Committing on `repoA` with a whitespace-only message. -/
def commitC9 : Tree × Except Err Tree :=
  StageAPI.commit repoA "master" " " none none "t1"

/-- Hash returned by the whitespace-message commit. -/
def hashC9 : Tree :=
  match commitC9.2 with
  | .ok h => h
  | .error _ => .file ""

/-- C9 counterexample: the message `" "` is empty after trimming (it is all
whitespace), yet `commit` accepts it: the source checks `len(message) == 0`
without trimming (stage.py line 160), so the commit succeeds instead of
failing with `ValidationError`. -/
theorem claimC9_counterexample :
    " ".toList.all Char.isWhitespace = true ∧
    " ".length ≠ 0 ∧
    commitC9.2 ≠ .error Err.validationError ∧
    commitC9.2 = .ok hashC9 := by
  decide

/-- C6: with no merge marker, no replay marker and an empty stage-vs-head
change set, `commit()` fails with `NothingToCommitError` and mutates
nothing; in particular the head is unchanged. -/
theorem claimC6_empty_commit_rejected (repo : Tree) (b msg : String)
    (md : Option CommitMeta) (a : Option String) (now : String)
    (hnm : repo.get [b, "merge_parent"] = none)
    (hnr : repo.get [b, "replay_offset"] = none)
    (hch : diff_changes repo b "stage" "head" = []) :
    StageAPI.commit repo b msg md a now = (repo, .error .nothingToCommit) ∧
    (StageAPI.commit repo b msg md a now).1.get [b, "head"] =
      repo.get [b, "head"] := by
  have h : StageAPI.commit repo b msg md a now = (repo, .error .nothingToCommit) := by
    simp [StageAPI.commit, hnm, hnr, hch]
  exact ⟨h, by rw [h]⟩

/-- C6 witness: on the state reached right after the first commit of the
concrete scenario, a second commit with nothing staged is rejected. -/
theorem claimC6_empty_commit_rejected_witness :
    StageAPI.commit repoA1 "master" "again" none none "t3" =
      (repoA1, .error .nothingToCommit) ∧
    (StageAPI.commit repoA1 "master" "again" none none "t3").1.get
      ["master", "head"] = repoA1.get ["master", "head"] :=
  claimC6_empty_commit_rejected repoA1 "master" "again" none none "t3"
    (by decide) (by decide) (by decide)

/-- C9 amended: with no metadata supplied, `commit` fails with
`ValidationError` exactly when the raw message has length zero (no
trimming), and mutates nothing. -/
theorem claimC9_amended (repo : Tree) (b msg : String) (a : Option String)
    (now : String)
    (hch : diff_changes repo b "stage" "head" ≠ [])
    (hmsg : msg.length = 0) :
    StageAPI.commit repo b msg none a now = (repo, .error .validationError) := by
  have hne : (diff_changes repo b "stage" "head").isEmpty = false := by
    cases hd : diff_changes repo b "stage" "head" with
    | nil => exact absurd hd hch
    | cons x xs => rfl
  simp [StageAPI.commit, hne, hmsg]

/-- C9 amended witness: an empty message on a repository with staged
changes is rejected with `ValidationError`, state untouched. -/
theorem claimC9_amended_witness :
    StageAPI.commit repoA "master" "" none none "t1" =
      (repoA, .error .validationError) :=
  claimC9_amended repoA "master" "" none "t1" (by decide) (by decide)

/-- C10: `create(name, "@head", no_checkout)` copies the active branch's
directory verbatim, so the new branch's tree equals (hashes equal to) the
active branch's tree, and every subpath — merge or replay markers and
backups included — is inherited. -/
theorem claimC10_create_from_head (repo r B : Tree) (active name : String)
    (hvalid : isValidName name = true)
    (hn1 : name ≠ "head") (hn2 : name ≠ "workspace") (hn3 : name ≠ "stage")
    (hfresh : repo.get [name] = none)
    (hB : repo.get [active] = some B)
    (hset : repo.setPath [name] B = some r) :
    BranchAPI.create repo active name "@head" true = (r, none) ∧
    r.get [name] = repo.get [active] ∧
    ∀ q, r.get (name :: q) = repo.get (active :: q) := by
  have hself := Tree.setPath_get_self hset
  refine ⟨?_, ?_, ?_⟩
  · simp [BranchAPI.create, hvalid, hfresh, hB, hset, hn1, hn2, hn3]
  · rw [hself, hB]
  · intro q
    have e1 := Tree.get_append r [name] q
    have e2 := Tree.get_append repo [active] q
    simp only [List.cons_append, List.nil_append] at e1 e2
    rw [e1, e2, hself, hB]

/-- C3 amended: `create` with an unresolvable `fromRef` fails with
`NotFoundError`, but only after creating the new branch's empty `stage` and
`workspace` trees, which remain in the store. -/
theorem claimC3_amended (repo r1 r2 : Tree) (active name from_commit : String)
    (hvalid : isValidName name = true)
    (hn1 : name ≠ "head") (hn2 : name ≠ "workspace") (hn3 : name ≠ "stage")
    (hfresh : repo.get [name] = none)
    (hnh : from_commit ≠ "@head")
    (hmk1 : repo.mkdirp [name, "stage"] = some r1)
    (hmk2 : r1.mkdirp [name, "workspace"] = some r2)
    (hnc : r2.get (active :: expand_ref from_commit) = none) :
    BranchAPI.create repo active name from_commit true =
      (r2, some Err.notFoundError) ∧
    (r2.get [name, "stage"]).isSome ∧
    (r2.get [name, "workspace"]).isSome := by
  refine ⟨?_, ?_, ?_⟩
  · simp [BranchAPI.create, hvalid, hfresh, hnh, hmk1, hmk2, hnc, hn1, hn2, hn3]
  · rw [Tree.mkdirp_get_diverge
      (diverge_cons_same name ["workspace"] ["stage"] (by decide)) hmk2]
    exact Tree.mkdirp_get_isSome hmk1
  · exact Tree.mkdirp_get_isSome hmk2

/-- Intermediate states of the C3 concrete scenario. -/
def repoC3r1 : Tree := (repoA.mkdirp ["feature", "stage"]).getD repoA

/-- Second intermediate state of the C3 concrete scenario. -/
def repoC3r2 : Tree := (repoC3r1.mkdirp ["feature", "workspace"]).getD repoC3r1

/-- C3 amended witness: the concrete creation from `@nope` fails with
`NotFoundError` leaving the two fresh trees behind. -/
theorem claimC3_amended_witness :
    BranchAPI.create repoA "master" "feature" "@nope" true =
      (repoC3r2, some Err.notFoundError) ∧
    (repoC3r2.get ["feature", "stage"]).isSome ∧
    (repoC3r2.get ["feature", "workspace"]).isSome :=
  claimC3_amended repoA repoC3r1 repoC3r2 "master" "feature" "@nope"
    (by decide) (by decide) (by decide) (by decide) (by decide) (by decide)
    (by decide) (by decide) (by decide)

/-- The `add` loop raises on the first path outside the root, after the
good paths placed before it were staged. -/
theorem stageAddLoop_outside (branch : String) (root : List String)
    (ps : List (List String)) :
    ∀ (repo : Tree) (acc : List Change) (p : List String)
      (rest : List (List String)),
      (∀ q ∈ ps, (relativeTo root q).isSome) →
      relativeTo root p = none →
      stageAddLoop branch root repo (ps ++ p :: rest) acc =
        ((stageAddLoop branch root repo ps acc).1, .error .pathOutsideRepo) := by
  induction ps with
  | nil =>
    intro repo acc p rest hg hb
    simp only [List.nil_append, stageAddLoop, hb]
  | cons q ps ih =>
    intro repo acc p rest hg hb
    have hq := hg q (by simp)
    match hr : relativeTo root q with
    | none =>
      rw [hr] at hq
      simp at hq
    | some rel =>
      simp only [List.cons_append, stageAddLoop, hr]
      exact ih _ _ p rest (fun x hx => hg x (by simp [hx])) hb

/-- C8 amended: `add(paths)` with an offending path fails with
`PathOutsideRepoError`, and the resulting store state is exactly the state
after staging the paths placed before the offending one; the offending and
later paths are not staged. -/
theorem claimC8_amended (repo : Tree) (branch : String) (root : List String)
    (ps rest : List (List String)) (p : List String)
    (hg : ∀ q ∈ ps, (relativeTo root q).isSome)
    (hb : relativeTo root p = none) :
    StageAPI.add repo branch root (ps ++ p :: rest) =
      ((StageAPI.add repo branch root ps).1, .error .pathOutsideRepo) := by
  unfold StageAPI.add
  exact stageAddLoop_outside branch root ps repo [] p rest hg hb

/-- C8 amended witness: the concrete two-path `add` fails with
`PathOutsideRepoError` in the state reached by staging just the first
path. -/
theorem claimC8_amended_witness :
    StageAPI.add repoAdd "master" ["repo"] [["repo", "foo"], ["outside", "bar"]] =
      ((StageAPI.add repoAdd "master" ["repo"] [["repo", "foo"]]).1,
        .error .pathOutsideRepo) :=
  claimC8_amended repoAdd "master" ["repo"] [["repo", "foo"]] []
    ["outside", "bar"] (by decide) (by decide)

/-- C4: for two sequential successful commits C1 then C2 on the same
branch (the head untouched in between, as only `commit` replaces it), the
`parent` link attached to the new head points at the hash returned by the
first commit: `C2.parent = hash(C1)`. -/
theorem claimC4_parent_chain (r0 r1 h1 rMid r2 h2 : Tree) (b m1 m2 : String)
    (md1 md2 : Option CommitMeta) (a1 a2 : Option String) (t1 t2 : String)
    (hc1 : StageAPI.commit r0 b m1 md1 a1 t1 = (r1, .ok h1))
    (hpres : rMid.get [b, "head"] = r1.get [b, "head"])
    (hc2 : StageAPI.commit rMid b m2 md2 a2 t2 = (r2, .ok h2)) :
    h2.get ["parent"] = some h1 ∧ r2.get [b, "head"] = some h2 := by
  have hh1 : rMid.get [b, "head"] = some h1 := by
    rw [hpres, commit_ok_head hc1]
  have key : r2.get [b, "head", "parent"] = some h1 ∧
      r2.get [b, "head"] = some h2 := by
    cases hb : ((rMid.get [b, "merge_parent"]).isSome &&
        !(rMid.get [b, "replay_offset"]).isSome) with
    | false =>
      obtain ⟨meta, H, S, rB, rC, hH, hS, hrB, hrC, hmd, hfin⟩ :=
        commit_ok_run_plain hb hc2
      obtain rfl : H = h1 := Option.some.inj (hH.symm.trans hh1)
      refine ⟨?_, hfin⟩
      rw [Tree.setPath_get_diverge (diverge_cons_same b ["head", "commit_metadata"]
        ["head", "parent"] (by decide)) hmd]
      exact Tree.setPath_get_self hrC
    | true =>
      obtain ⟨meta, H, S, rB, rC, rD, hH, hS, hrB, hrC, hms, hmd, hfin⟩ :=
        commit_ok_run_merge hb hc2
      obtain rfl : H = h1 := Option.some.inj (hH.symm.trans hh1)
      refine ⟨?_, hfin⟩
      rw [Tree.setPath_get_diverge (diverge_cons_same b ["head", "commit_metadata"]
        ["head", "parent"] (by decide)) hmd]
      rw [mergeStep_get_diverge hms
        (diverge_cons_same b ["head", "merge_parent"] ["head", "parent"] (by decide))
        (diverge_cons_same b ["merge_parent"] ["head", "parent"] (by decide))
        (diverge_cons_same b ["merge_head"] ["head", "parent"] (by decide))
        (diverge_cons_same b ["merge_stage"] ["head", "parent"] (by decide))
        (diverge_cons_same b ["merge_workspace"] ["head", "parent"] (by decide))]
      exact Tree.setPath_get_self hrC
  refine ⟨?_, key.2⟩
  have happ := Tree.get_append r2 [b, "head"] ["parent"]
  simp only [List.cons_append, List.nil_append] at happ
  rw [key.2, Option.some_bind] at happ
  rw [← happ]
  exact key.1

/-- C4 witness: the parent link of the concrete second commit is the hash
of the concrete first commit. -/
theorem claimC4_parent_chain_witness :
    hashA2.get ["parent"] = some hashA1 ∧
    repoA2.get ["master", "head"] = some hashA2 :=
  claimC4_parent_chain repoA repoA1 hashA1 repoA1b repoA2 hashA2 "master"
    "init" "update" none none none none "t1" "t2"
    (by decide) (by decide) (by decide)

/-- C5: after every successful `commit()` the stage-vs-head diff is empty:
the head was replaced with a copy of the stage, and the extra links the
commit adds (`parent`, `merge_parent`, `commit_metadata`) live next to the
`bundle` subtree, not inside it. -/
theorem claimC5_commit_clears_staged_diff (repo r2 h2 : Tree) (b m : String)
    (md : Option CommitMeta) (a : Option String) (now : String)
    (hc : StageAPI.commit repo b m md a now = (r2, .ok h2)) :
    diff_changes r2 b "stage" "head" = [] := by
  have key : ∃ S : Tree,
      r2.get [b, "head", "bundle", "files"] = S.get ["bundle", "files"] ∧
      r2.get [b, "stage", "bundle", "files"] = S.get ["bundle", "files"] := by
    cases hb : ((repo.get [b, "merge_parent"]).isSome &&
        !(repo.get [b, "replay_offset"]).isSome) with
    | false =>
      obtain ⟨meta, H, S, rB, rC, hH, hS, hrB, hrC, hmd, hfin⟩ :=
        commit_ok_run_plain hb hc
      refine ⟨S, ?_, ?_⟩
      · rw [Tree.setPath_get_diverge (diverge_cons_same b ["head", "commit_metadata"]
          ["head", "bundle", "files"] (by decide)) hmd]
        rw [Tree.setPath_get_diverge (diverge_cons_same b ["head", "parent"]
          ["head", "bundle", "files"] (by decide)) hrC]
        have happ := Tree.get_append rB [b, "head"] ["bundle", "files"]
        simp only [List.cons_append, List.nil_append] at happ
        rw [happ, Tree.setPath_get_self hrB, Option.some_bind]
      · rw [Tree.setPath_get_diverge (diverge_cons_same b ["head", "commit_metadata"]
          ["stage", "bundle", "files"] (by decide)) hmd]
        rw [Tree.setPath_get_diverge (diverge_cons_same b ["head", "parent"]
          ["stage", "bundle", "files"] (by decide)) hrC]
        rw [Tree.setPath_get_diverge (diverge_cons_same b ["head"]
          ["stage", "bundle", "files"] (by decide)) hrB]
        rw [rmIgnore_get_diverge (diverge_cons_same b ["head"]
          ["stage", "bundle", "files"] (by decide))]
        have happ := Tree.get_append repo [b, "stage"] ["bundle", "files"]
        simp only [List.cons_append, List.nil_append] at happ
        rw [happ, hS, Option.some_bind]
    | true =>
      obtain ⟨meta, H, S, rB, rC, rD, hH, hS, hrB, hrC, hms, hmd, hfin⟩ :=
        commit_ok_run_merge hb hc
      refine ⟨S, ?_, ?_⟩
      · rw [Tree.setPath_get_diverge (diverge_cons_same b ["head", "commit_metadata"]
          ["head", "bundle", "files"] (by decide)) hmd]
        rw [mergeStep_get_diverge hms
          (diverge_cons_same b ["head", "merge_parent"] ["head", "bundle", "files"] (by decide))
          (diverge_cons_same b ["merge_parent"] ["head", "bundle", "files"] (by decide))
          (diverge_cons_same b ["merge_head"] ["head", "bundle", "files"] (by decide))
          (diverge_cons_same b ["merge_stage"] ["head", "bundle", "files"] (by decide))
          (diverge_cons_same b ["merge_workspace"] ["head", "bundle", "files"] (by decide))]
        rw [Tree.setPath_get_diverge (diverge_cons_same b ["head", "parent"]
          ["head", "bundle", "files"] (by decide)) hrC]
        have happ := Tree.get_append rB [b, "head"] ["bundle", "files"]
        simp only [List.cons_append, List.nil_append] at happ
        rw [happ, Tree.setPath_get_self hrB, Option.some_bind]
      · rw [Tree.setPath_get_diverge (diverge_cons_same b ["head", "commit_metadata"]
          ["stage", "bundle", "files"] (by decide)) hmd]
        rw [mergeStep_get_diverge hms
          (diverge_cons_same b ["head", "merge_parent"] ["stage", "bundle", "files"] (by decide))
          (diverge_cons_same b ["merge_parent"] ["stage", "bundle", "files"] (by decide))
          (diverge_cons_same b ["merge_head"] ["stage", "bundle", "files"] (by decide))
          (diverge_cons_same b ["merge_stage"] ["stage", "bundle", "files"] (by decide))
          (diverge_cons_same b ["merge_workspace"] ["stage", "bundle", "files"] (by decide))]
        rw [Tree.setPath_get_diverge (diverge_cons_same b ["head", "parent"]
          ["stage", "bundle", "files"] (by decide)) hrC]
        rw [Tree.setPath_get_diverge (diverge_cons_same b ["head"]
          ["stage", "bundle", "files"] (by decide)) hrB]
        rw [rmIgnore_get_diverge (diverge_cons_same b ["head"]
          ["stage", "bundle", "files"] (by decide))]
        have happ := Tree.get_append repo [b, "stage"] ["bundle", "files"]
        simp only [List.cons_append, List.nil_append] at happ
        rw [happ, hS, Option.some_bind]
  obtain ⟨S, hh, hs⟩ := key
  simp only [diff_changes, refFilesPath]
  rw [hh, hs]
  exact diffTrees_self _

/-- C5 witness: the staged diff of the concrete repository is empty right
after its first commit. -/
theorem claimC5_commit_clears_staged_diff_witness :
    diff_changes repoA1 "master" "stage" "head" = [] :=
  claimC5_commit_clears_staged_diff repoA repoA1 hashA1 "master" "init"
    none none "t1" (by decide)

/-- C7: when `commit()` succeeds with a merge marker and no replay marker,
it attaches the marker as the new head's `merge_parent` link and deletes
the branch-level marker and all three backups; when a replay marker is
present, it leaves every marker and backup untouched. -/
theorem claimC7_merge_replay_markers :
    (∀ (repo r2 h2 mp : Tree) (b m : String) (md : Option CommitMeta)
        (a : Option String) (now : String),
      repo.get [b, "merge_parent"] = some mp →
      repo.get [b, "replay_offset"] = none →
      StageAPI.commit repo b m md a now = (r2, .ok h2) →
      r2.get [b, "head", "merge_parent"] = some mp ∧
      r2.get [b, "merge_parent"] = none ∧
      r2.get [b, "merge_head"] = none ∧
      r2.get [b, "merge_stage"] = none ∧
      r2.get [b, "merge_workspace"] = none) ∧
    (∀ (repo r2 h2 : Tree) (b m : String) (md : Option CommitMeta)
        (a : Option String) (now : String),
      (repo.get [b, "replay_offset"]).isSome = true →
      StageAPI.commit repo b m md a now = (r2, .ok h2) →
      r2.get [b, "merge_parent"] = repo.get [b, "merge_parent"] ∧
      r2.get [b, "replay_offset"] = repo.get [b, "replay_offset"] ∧
      r2.get [b, "merge_head"] = repo.get [b, "merge_head"] ∧
      r2.get [b, "merge_stage"] = repo.get [b, "merge_stage"] ∧
      r2.get [b, "merge_workspace"] = repo.get [b, "merge_workspace"]) := by
  constructor
  · intro repo r2 h2 mp b m md a now hmp hnr hc
    have hb : ((repo.get [b, "merge_parent"]).isSome &&
        !(repo.get [b, "replay_offset"]).isSome) = true := by
      simp [hmp, hnr]
    obtain ⟨meta, H, S, rB, rC, rD, hH, hS, hrB, hrC, hms, hmd, hfin⟩ :=
      commit_ok_run_merge hb hc
    have hmpC : rC.get [b, "merge_parent"] = some mp := by
      rw [Tree.setPath_get_diverge (diverge_cons_same b ["head", "parent"]
        ["merge_parent"] (by decide)) hrC]
      rw [Tree.setPath_get_diverge (diverge_cons_same b ["head"]
        ["merge_parent"] (by decide)) hrB]
      rw [rmIgnore_get_diverge (diverge_cons_same b ["head"]
        ["merge_parent"] (by decide))]
      exact hmp
    obtain ⟨mp2, r4, hmp2, hset4, hrm⟩ := mergeStep_ok hms
    obtain rfl : mp2 = mp := Option.some.inj (hmp2.symm.trans hmpC)
    obtain ⟨u1, hu1, hrest1⟩ := rmSeq_ok_cons hrm
    obtain ⟨u2, hu2, hrest2⟩ := rmSeq_ok_cons hrest1
    obtain ⟨u3, hu3, hrest3⟩ := rmSeq_ok_cons hrest2
    obtain ⟨u4, hu4, hrest4⟩ := rmSeq_ok_cons hrest3
    obtain rfl : u4 = rD := rmSeq_nil_ok hrest4
    refine ⟨?_, ?_, ?_, ?_, ?_⟩
    · rw [Tree.setPath_get_diverge (diverge_cons_same b ["head", "commit_metadata"]
        ["head", "merge_parent"] (by decide)) hmd]
      rw [Tree.rmPath_get_diverge (diverge_cons_same b ["merge_workspace"]
        ["head", "merge_parent"] (by decide)) hu4]
      rw [Tree.rmPath_get_diverge (diverge_cons_same b ["merge_stage"]
        ["head", "merge_parent"] (by decide)) hu3]
      rw [Tree.rmPath_get_diverge (diverge_cons_same b ["merge_head"]
        ["head", "merge_parent"] (by decide)) hu2]
      rw [Tree.rmPath_get_diverge (diverge_cons_same b ["merge_parent"]
        ["head", "merge_parent"] (by decide)) hu1]
      exact Tree.setPath_get_self hset4
    · rw [Tree.setPath_get_diverge (diverge_cons_same b ["head", "commit_metadata"]
        ["merge_parent"] (by decide)) hmd]
      rw [Tree.rmPath_get_diverge (diverge_cons_same b ["merge_workspace"]
        ["merge_parent"] (by decide)) hu4]
      rw [Tree.rmPath_get_diverge (diverge_cons_same b ["merge_stage"]
        ["merge_parent"] (by decide)) hu3]
      rw [Tree.rmPath_get_diverge (diverge_cons_same b ["merge_head"]
        ["merge_parent"] (by decide)) hu2]
      exact Tree.rmPath_get_self hu1
    · rw [Tree.setPath_get_diverge (diverge_cons_same b ["head", "commit_metadata"]
        ["merge_head"] (by decide)) hmd]
      rw [Tree.rmPath_get_diverge (diverge_cons_same b ["merge_workspace"]
        ["merge_head"] (by decide)) hu4]
      rw [Tree.rmPath_get_diverge (diverge_cons_same b ["merge_stage"]
        ["merge_head"] (by decide)) hu3]
      exact Tree.rmPath_get_self hu2
    · rw [Tree.setPath_get_diverge (diverge_cons_same b ["head", "commit_metadata"]
        ["merge_stage"] (by decide)) hmd]
      rw [Tree.rmPath_get_diverge (diverge_cons_same b ["merge_workspace"]
        ["merge_stage"] (by decide)) hu4]
      exact Tree.rmPath_get_self hu3
    · rw [Tree.setPath_get_diverge (diverge_cons_same b ["head", "commit_metadata"]
        ["merge_workspace"] (by decide)) hmd]
      exact Tree.rmPath_get_self hu4
  · intro repo r2 h2 b m md a now hrep hc
    have hb : ((repo.get [b, "merge_parent"]).isSome &&
        !(repo.get [b, "replay_offset"]).isSome) = false := by
      simp [hrep]
    obtain ⟨meta, H, S, rB, rC, hH, hS, hrB, hrC, hmd, hfin⟩ :=
      commit_ok_run_plain hb hc
    have hpres : ∀ x : String, ¬("head" = x) →
        r2.get [b, x] = repo.get [b, x] := by
      intro x hx
      have d1 : diverge ["head"] [x] = true := by
        simp only [diverge]
        rw [if_neg hx]
      have d2 : diverge ["head", "parent"] [x] = true := by
        simp only [diverge]
        rw [if_neg hx]
      have d3 : diverge ["head", "commit_metadata"] [x] = true := by
        simp only [diverge]
        rw [if_neg hx]
      rw [Tree.setPath_get_diverge (diverge_cons_same b ["head", "commit_metadata"]
        [x] d3) hmd]
      rw [Tree.setPath_get_diverge (diverge_cons_same b ["head", "parent"]
        [x] d2) hrC]
      rw [Tree.setPath_get_diverge (diverge_cons_same b ["head"] [x] d1) hrB]
      exact rmIgnore_get_diverge (diverge_cons_same b ["head"] [x] d1)
    exact ⟨hpres "merge_parent" (by decide), hpres "replay_offset" (by decide),
      hpres "merge_head" (by decide), hpres "merge_stage" (by decide),
      hpres "merge_workspace" (by decide)⟩

/-- A concrete repository in merge state: a pending merge marker with its
three backups, and a staged change. -/
def repoMerge : Tree :=
  .dir (.cons "master" (.dir (Entries.ofList
    [("head", refTree []),
     ("stage", refTree [("foo", .file "a")]),
     ("workspace", refTree [("foo", .file "a")]),
     ("merge_parent", .dir (.cons "x" (.file "m") .nil)),
     ("merge_head", .dir .nil),
     ("merge_stage", .dir .nil),
     ("merge_workspace", .dir .nil)])) .nil)

/-- The merge commit on `repoMerge`. -/
def commitMerge : Tree × Except Err Tree :=
  StageAPI.commit repoMerge "master" "merge" none none "tm"

/-- State after the merge commit. -/
def repoMergeOut : Tree := commitMerge.1

/-- Hash returned by the merge commit. -/
def hashMergeOut : Tree :=
  match commitMerge.2 with
  | .ok h => h
  | .error _ => .file ""

/-- A concrete repository in replay state: a replay marker plus leftover
merge marker and backup, and a staged change. -/
def repoReplay : Tree :=
  .dir (.cons "master" (.dir (Entries.ofList
    [("head", refTree []),
     ("stage", refTree [("foo", .file "a")]),
     ("workspace", refTree [("foo", .file "a")]),
     ("replay_offset", .file "3"),
     ("merge_parent", .dir (.cons "x" (.file "m") .nil)),
     ("merge_head", .dir .nil),
     ("merge_stage", .dir .nil),
     ("merge_workspace", .dir .nil)])) .nil)

/-- The replay commit on `repoReplay`. -/
def commitReplay : Tree × Except Err Tree :=
  StageAPI.commit repoReplay "master" "replay" none none "tr"

/-- State after the replay commit. -/
def repoReplayOut : Tree := commitReplay.1

/-- Hash returned by the replay commit. -/
def hashReplayOut : Tree :=
  match commitReplay.2 with
  | .ok h => h
  | .error _ => .file ""

/-- C7 witness: on the concrete merge state the commit links and clears the
markers, and on the concrete replay state it preserves all of them. -/
theorem claimC7_merge_replay_markers_witness :
    (repoMergeOut.get ["master", "head", "merge_parent"] =
        some (.dir (.cons "x" (.file "m") .nil)) ∧
      repoMergeOut.get ["master", "merge_parent"] = none ∧
      repoMergeOut.get ["master", "merge_head"] = none ∧
      repoMergeOut.get ["master", "merge_stage"] = none ∧
      repoMergeOut.get ["master", "merge_workspace"] = none) ∧
    (repoReplayOut.get ["master", "merge_parent"] =
        repoReplay.get ["master", "merge_parent"] ∧
      repoReplayOut.get ["master", "replay_offset"] =
        repoReplay.get ["master", "replay_offset"] ∧
      repoReplayOut.get ["master", "merge_head"] =
        repoReplay.get ["master", "merge_head"] ∧
      repoReplayOut.get ["master", "merge_stage"] =
        repoReplay.get ["master", "merge_stage"] ∧
      repoReplayOut.get ["master", "merge_workspace"] =
        repoReplay.get ["master", "merge_workspace"]) :=
  ⟨claimC7_merge_replay_markers.1 repoMerge repoMergeOut hashMergeOut
      (.dir (.cons "x" (.file "m") .nil)) "master" "merge" none none "tm"
      (by decide) (by decide) (by decide),
    claimC7_merge_replay_markers.2 repoReplay repoReplayOut hashReplayOut
      "master" "replay" none none "tr" (by decide) (by decide)⟩

/-- The active branch subtree of `repoReplay`, for the C10 witness. -/
def treeC10 : Tree := (repoReplay.get ["master"]).getD (.file "")

/-- The state created by branching `feature` off `repoReplay`'s head. -/
def repoC10r : Tree :=
  (BranchAPI.create repoReplay "master" "feature" "@head" true).1

/-- C10 witness: branching from `@head` on the concrete replay-state
repository copies the whole branch directory, markers and backups
included. -/
theorem claimC10_create_from_head_witness :
    BranchAPI.create repoReplay "master" "feature" "@head" true =
      (repoC10r, none) ∧
    repoC10r.get ["feature"] = repoReplay.get ["master"] ∧
    repoC10r.get ["feature", "merge_parent"] =
      repoReplay.get ["master", "merge_parent"] ∧
    repoC10r.get ["feature", "replay_offset"] =
      repoReplay.get ["master", "replay_offset"] := by
  have h := claimC10_create_from_head repoReplay repoC10r treeC10 "master"
    "feature" (by decide) (by decide) (by decide) (by decide) (by decide)
    (by decide) (by decide)
  exact ⟨h.1, h.2.1, h.2.2 ["merge_parent"], h.2.2 ["replay_offset"]⟩

end Ipvc
